import Mathlib

/-!
Verification of the `umami-helper` analytics library (`UmamiHelper` class in
`umami-helper.js`): a shallow embedding, in Lean, of the event-name sanitizer,
the configuration deep-merge, the readiness gate with its event queue, the
dispatch path of `logEvent`, and the scroll-depth tracker, together with
theorems checking the specified properties against these definitions.

Modelling conventions:
* JavaScript strings are `List Char`; `String.prototype.toLowerCase` is
  modelled as ASCII lowercasing (`Char.toLower`).  Every property proved here
  is insensitive to the difference, because the sanitizer replaces every
  character outside `[a-z0-9_]` with an underscore right after lowercasing.
* JavaScript values are the inductive `JSVal` (null, booleans, numbers as
  integers, strings, arrays, plain objects as ordered key/value lists).
  `undefined` is represented by `Option.none` at property-access sites.
* Timers and wall-clock time are replaced by a virtual clock: each dispatch
  attempt consumes one tick, and `Date.toISOString` is an injective rendering
  of the tick.  `setInterval` polling is a tick-indexed loop.
* Exceptions are `Except`: `logEventCall` is the call semantics of
  `logEvent` seen by the caller (a `Except.error` result would mean an
  exception escaping to the page); the `try`/`catch` inside `logEvent` is the
  `match` that converts `Except.error` of the body into a logged-only no-op.
-/

/-! ## Event-name sanitization (`sanitizeEventName`, source lines 361-367) -/

/-- Characters matched by the class `[a-z0-9_]` of the source regex. -/
def isAllowedChar (c : Char) : Bool :=
  (decide ('a' ≤ c) && decide (c ≤ 'z')) ||
  (decide ('0' ≤ c) && decide (c ≤ '9')) ||
  (decide (c = '_'))

/-- Model of `String.prototype.toLowerCase` (ASCII case mapping). -/
def jsToLower (c : Char) : Char :=
  if 'A' ≤ c ∧ c ≤ 'Z' then Char.ofNat (c.toNat + 32) else c

/-- Model of `.replace(/[^a-z0-9_]/g, '_')`: every character outside the
class becomes an underscore. -/
def replaceDisallowed (l : List Char) : List Char :=
  l.map (fun c => if isAllowedChar c = true then c else '_')

/-- Model of `.replace(/_+/g, '_')`: collapse each maximal run of
underscores to a single underscore (keeping one `'_'` per run). -/
def collapseUnderscores : List Char → List Char
  | [] => []
  | a :: rest =>
    let r := collapseUnderscores rest
    if a = '_' && r.head? == some '_' then r else a :: r

/-- White space removed by `String.prototype.trim` (the code points relevant
to this development). -/
def isJsSpace (c : Char) : Bool :=
  (decide (c = ' ')) || (decide (c = '\t')) || (decide (c = '\n')) ||
  (decide (c = '\r')) || (decide (c = '\x0b')) || (decide (c = '\x0c')) ||
  (decide (c = ' '))

/-- Model of `String.prototype.trim`: drop leading and trailing white
space (and only white space; underscores are not white space). -/
def jsTrim (l : List Char) : List Char :=
  ((l.dropWhile isJsSpace).reverse.dropWhile isJsSpace).reverse

/-- `sanitizeEventName` from the source: lowercase, then replace every
character outside `[a-z0-9_]` with `'_'`, then collapse underscore runs,
then `trim`. -/
def sanitizeEventName (event : List Char) : List Char :=
  jsTrim (collapseUnderscores (replaceDisallowed (event.map jsToLower)))

/-- No two consecutive underscores anywhere in the list. -/
def noDoubledUnderscore (l : List Char) : Prop :=
  List.Chain' (fun a b => ¬(a = '_' ∧ b = '_')) l

/-! ## JavaScript values and `mergeConfig` (source lines 57-67) -/

/-- JavaScript values as far as the configuration merge needs them. -/
inductive JSVal where
  | null : JSVal
  | bool : Bool → JSVal
  | num : Int → JSVal
  | str : List Char → JSVal
  | arr : List JSVal → JSVal
  | obj : List (String × JSVal) → JSVal

/-- `typeof v === 'object'`: true exactly for `null`, arrays and objects. -/
def typeofObject : JSVal → Bool
  | JSVal.null => true
  | JSVal.arr _ => true
  | JSVal.obj _ => true
  | _ => false

/-- `Array.isArray`. -/
def isJsArray : JSVal → Bool
  | JSVal.arr _ => true
  | _ => false

/-- JavaScript truthiness, as used by the `||` in `default_config[key] || {}`. -/
def truthy : JSVal → Bool
  | JSVal.null => false
  | JSVal.bool b => b
  | JSVal.num n => decide (n ≠ 0)
  | JSVal.str s => decide (s ≠ [])
  | JSVal.arr _ => true
  | JSVal.obj _ => true

/-- The string form of an array/string index key, as produced by `for..in`. -/
def natKey (i : Nat) : String := toString i

/-- Property lookup in an object's key/value list (first match). -/
def jsLookup : List (String × JSVal) → String → Option JSVal
  | [], _ => none
  | (k2, v) :: rest, k => if k2 = k then some v else jsLookup rest k

/-- JavaScript property assignment `o[k] = v` on an object's key/value
list: update the existing key in place, else append. -/
def setKey : List (String × JSVal) → String → JSVal → List (String × JSVal)
  | [], k, v => [(k, v)]
  | (k2, v2) :: rest, k, v =>
    if k2 = k then (k2, v) :: rest else (k2, v2) :: setKey rest k v

/-- Index-keyed entries of an array, starting at index `i`. -/
def idxEntries (i : Nat) : List JSVal → List (String × JSVal)
  | [] => []
  | a :: rest => (natKey i, a) :: idxEntries (i + 1) rest

/-- Index-keyed entries of a string: each own property is a one-character
string. -/
def strEntries (i : Nat) : List Char → List (String × JSVal)
  | [] => []
  | c :: rest => (natKey i, JSVal.str [c]) :: strEntries (i + 1) rest

/-- Own enumerable entries of a value: what both `{...v}` (object spread)
and `for (key in v)` enumerate.  Primitives other than strings have none;
`null` has none (so the merge loop over a `null` override runs zero
iterations). -/
def ownEntries : JSVal → List (String × JSVal)
  | JSVal.obj kvs => kvs
  | JSVal.arr xs => idxEntries 0 xs
  | JSVal.str s => strEntries 0 s
  | _ => []

/-- Property access `v[k]` for the value shapes reachable from the merge
(`none` is JavaScript `undefined`; `default_config` is never `null` there,
so the `null` TypeError path is not modelled). -/
def getProp (v : JSVal) (k : String) : Option JSVal :=
  match v with
  | JSVal.obj kvs => jsLookup kvs k
  | JSVal.arr xs =>
    if k = (r"length") then some (JSVal.num xs.length) else jsLookup (idxEntries 0 xs) k
  | JSVal.str s =>
    if k = (r"length") then some (JSVal.num s.length) else jsLookup (strEntries 0 s) k
  | _ => none

/-- The expression `default_config[key] || {}`: the default sub-value if it
is truthy, otherwise a fresh empty object (also when it is `undefined`). -/
def jsOrElseEmptyObj : Option JSVal → JSVal
  | some v => if truthy v = true then v else JSVal.obj []
  | none => JSVal.obj []

/-- `mergeConfig(default_config, user_config)` from the source:
`merged = {...default_config}`, then for each own key of `user_config`,
either recursively merge (non-array object values, `null` included by the
`typeof` test) or assign the override value wholesale. -/
def mergeConfig (d u : JSVal) : JSVal :=
  JSVal.obj ((ownEntries u).attach.foldl
    (fun merged p =>
      if h : typeofObject p.1.2 = true ∧ isJsArray p.1.2 = false then
        setKey merged p.1.1 (mergeConfig (jsOrElseEmptyObj (getProp d p.1.1)) p.1.2)
      else
        setKey merged p.1.1 p.1.2)
    (ownEntries d))
termination_by sizeOf u
decreasing_by
  have hmem : p.1 ∈ ownEntries u := p.2
  have ht : typeofObject p.1.2 = true := h.1
  rcases hp : p.1 with ⟨k, v⟩
  rw [hp] at hmem ht
  clear hp h
  cases u with
  | null => simp [ownEntries] at hmem
  | bool b => simp [ownEntries] at hmem
  | num n => simp [ownEntries] at hmem
  | str s =>
    exfalso
    have hgen : ∀ (s2 : List Char) (i : Nat),
        (k, v) ∈ strEntries i s2 → typeofObject v = true → False := by
      intro s2
      induction s2 with
      | nil => intro i h2 _; simp [strEntries] at h2
      | cons c rest ih =>
        intro i h2 ht2
        simp only [strEntries, List.mem_cons] at h2
        rcases h2 with h3 | h5
        · rw [(Prod.mk.injEq _ _ _ _).mp h3 |>.2] at ht2
          simp [typeofObject] at ht2
        · exact ih (i + 1) h5 ht2
    exact hgen s 0 hmem ht
  | arr xs =>
    have hgen : ∀ (ys : List JSVal) (i : Nat), (k, v) ∈ idxEntries i ys → v ∈ ys := by
      intro ys
      induction ys with
      | nil => intro i h2; simp [idxEntries] at h2
      | cons x rest ih =>
        intro i h2
        simp only [idxEntries, List.mem_cons] at h2
        rcases h2 with h3 | h5
        · rw [(Prod.mk.injEq _ _ _ _).mp h3 |>.2]; exact List.mem_cons_self x rest
        · exact List.mem_cons_of_mem x (ih (i + 1) h5)
    have hv := hgen xs 0 hmem
    have h1 := List.sizeOf_lt_of_mem hv
    simp only [JSVal.arr.sizeOf_spec]
    omega
  | obj kvs =>
    simp only [ownEntries] at hmem
    have h1 := List.sizeOf_lt_of_mem hmem
    simp only [JSVal.obj.sizeOf_spec, Prod.mk.sizeOf_spec] at h1 ⊢
    omega

/-- The value assigned to `merged[key]` by one iteration of the
`for..in` loop of `mergeConfig`: a recursive merge for non-array objects
(`null` included), the override value wholesale otherwise. -/
def mergedValue (d : JSVal) (k : String) (v : JSVal) : JSVal :=
  if typeofObject v = true ∧ isJsArray v = false then
    mergeConfig (jsOrElseEmptyObj (getProp d k)) v
  else v

/-- The body of the `for..in` loop of `mergeConfig`, as a plain recursion
over the already-enumerated entries of `user_config` (related to
`mergeConfig` by `mergeConfig_eq` below). -/
def mergeEntries (d : JSVal) (merged : List (String × JSVal)) :
    List (String × JSVal) → List (String × JSVal)
  | [] => merged
  | (k, v) :: rest => mergeEntries d (setKey merged k (mergedValue d k v)) rest

/-! ## Readiness gate, event queue and dispatcher (source lines 47-110, 336-358) -/

/-- Exceptions that can arise inside the `try` block of `logEvent`:
calling `.toLowerCase()` on a non-string event name throws a `TypeError`;
the collector's `track` call may itself throw. -/
inductive JsError where
  | typeError : JsError
  | trackFailed : JsError

/-- Behaviour of the external collector `window.umami`: whether the
`track` call attempted at a given clock tick throws. -/
structure CollectorEnv where
  trackThrows : Nat → Bool

/-- An entry of `this.eventQueue`: the `{ event, properties }` record pushed
by `logEvent` before readiness. -/
structure QueuedEvent where
  event : JSVal
  properties : List (String × JSVal)

/-- The mutable state of a `UmamiHelper` instance that the gate, queue and
dispatcher touch, plus the log of successful `window.umami.track` calls and
the virtual clock. -/
structure HelperState where
  initialized : Bool
  eventQueue : List QueuedEvent
  tracked : List (List Char × List (String × JSVal))
  now : Nat

/-- Injective rendering of the virtual clock tick as the ISO-8601 string
produced by `new Date().toISOString()` (the calendar formatting itself is
abstracted; only freshness and identity of the string matter here). -/
def jsDateToISOString (t : Nat) : List Char := (toString t).data ++ ['Z']

/-- The expression `event.toLowerCase()...` applied to an arbitrary value:
on a string it is the sanitizer; on anything else it throws a `TypeError`
(numbers, `null`, objects have no `toLowerCase`). -/
def sanitizeEventNameJS : JSVal → Except JsError (List Char)
  | JSVal.str s => Except.ok (sanitizeEventName s)
  | _ => Except.error JsError.typeError

/-- The enhanced properties `{ ...properties, timestamp: new Date().toISOString() }`
built at dispatch time `t`. -/
def enhanceProperties (properties : List (String × JSVal)) (t : Nat) :
    List (String × JSVal) :=
  setKey properties (r"timestamp") (JSVal.str (jsDateToISOString t))

/-- The `try` block of `logEvent`: sanitize the event name, enhance the
properties, call `window.umami.track`.  Any of these may throw. -/
def logEventBody (env : CollectorEnv) (s : HelperState) (event : JSVal)
    (properties : List (String × JSVal)) : Except JsError HelperState :=
  match sanitizeEventNameJS event with
  | Except.error e => Except.error e
  | Except.ok sanitizedEvent =>
    if env.trackThrows s.now = true then Except.error JsError.trackFailed
    else
      Except.ok
        { s with
          tracked := s.tracked ++ [(sanitizedEvent, enhanceProperties properties s.now)]
          now := s.now + 1 }

/-- `logEvent(event, properties)` as seen by its caller: an `Except.error`
result would be an exception escaping to the page.  Before readiness the
call only pushes onto the queue; after readiness the body runs inside
`try`/`catch`, and a caught failure is only debug-logged (the clock still
advances past the failed dispatch attempt). -/
def logEventCall (env : CollectorEnv) (s : HelperState) (event : JSVal)
    (properties : List (String × JSVal)) : Except JsError HelperState :=
  if s.initialized = false then
    Except.ok { s with eventQueue := s.eventQueue ++ [⟨event, properties⟩] }
  else
    match logEventBody env s event properties with
    | Except.ok s2 => Except.ok s2
    | Except.error _ => Except.ok { s with now := s.now + 1 }

/-- The state after a `logEvent` call (total, since the call never
throws; see `c5_logEvent_never_throws`). -/
def logEvent (env : CollectorEnv) (s : HelperState) (event : JSVal)
    (properties : List (String × JSVal)) : HelperState :=
  match logEventCall env s event properties with
  | Except.ok s2 => s2
  | Except.error _ => s

/-- A sequence of `logEvent` calls with string event names, applied in
order (the shape every adapter uses). -/
def applyLogs (env : CollectorEnv) (calls : List (List Char × List (String × JSVal)))
    (s : HelperState) : HelperState :=
  calls.foldl (fun s2 c => logEvent env s2 (JSVal.str c.1) c.2) s

/-- The `while` loop of `processEventQueue`, fuelled by the initial queue
length: `shift()` the head entry and `logEvent` it.  (The source calls this
loop only with `initialized === true`, in which regime each iteration
shortens the queue by one, so the fuel is exactly sufficient.) -/
def drainLoop (env : CollectorEnv) : Nat → HelperState → HelperState
  | 0, s => s
  | Nat.succ fuel, s =>
    match s.eventQueue with
    | [] => s
    | q :: rest => drainLoop env fuel (logEvent env { s with eventQueue := rest } q.event q.properties)

/-- `processEventQueue` from the source. -/
def processEventQueue (env : CollectorEnv) (s : HelperState) : HelperState :=
  drainLoop env s.eventQueue.length s

/-- The NOT_READY to READY transition taken by `init` and by a successful
poll of `waitForUmami`: set `initialized`, then drain the queue.  (The
adapter installation `setupEventListeners` touches none of this state and
is modelled separately by the scroll definitions below.) -/
def becomeReady (env : CollectorEnv) (s : HelperState) : HelperState :=
  processEventQueue env { s with initialized := true }

/-- One `setInterval` callback chain of `waitForUmami`: `attempts` counts
callbacks already run, `present t` tells whether `window.umami` exists when
the t-th callback runs.  Returns the final state and the total number of
callbacks that ran before the interval was cleared.  The fuel is
`maxAttempts + 1` at the top call, which the exhaustion branch makes
sufficient. -/
def waitForUmamiGo (env : CollectorEnv) (present : Nat → Bool) (maxAttempts : Nat) :
    Nat → Nat → HelperState → HelperState × Nat
  | 0, attempts, s => (s, attempts)
  | Nat.succ fuel, attempts, s =>
    if present (attempts + 1) = true then (becomeReady env s, attempts + 1)
    else if maxAttempts ≤ attempts + 1 then (s, attempts + 1)
    else waitForUmamiGo env present maxAttempts fuel (attempts + 1) s

/-- `waitForUmami` from the source: poll until the collector is present or
`retryAttempts` callbacks have run, clearing the interval on either
terminal condition. -/
def waitForUmami (env : CollectorEnv) (present : Nat → Bool) (maxAttempts : Nat)
    (s : HelperState) : HelperState × Nat :=
  waitForUmamiGo env present maxAttempts (maxAttempts + 1) 0 s

/-- The forwards that draining a queue at clock `t` produces: one `track`
call per entry in order, each with a fresh dispatch-time timestamp (an
entry with a non-string event name would be dropped by the caught
`TypeError`; every adapter enqueues string names). -/
def dispatches (t : Nat) : List QueuedEvent → List (List Char × List (String × JSVal))
  | [] => []
  | q :: rest =>
    match sanitizeEventNameJS q.event with
    | Except.ok nm => (nm, enhanceProperties q.properties t) :: dispatches (t + 1) rest
    | Except.error _ => dispatches (t + 1) rest

/-! ## Scroll-depth tracking (`setupScrollTracking`, source lines 249-291) -/

/-- The per-page-load scroll state: the `reached` set and the chronological
log of thresholds for which a `scroll_depth` event fired (each fired event
carries its threshold as the `percentage` property). -/
structure ScrollState where
  reached : List Int
  fired : List Int

/-- `handleScroll` at an already-rounded percentage: for each configured
threshold in configuration order, fire once if the percentage has reached
it and it is not yet in the `reached` set. -/
def handleScroll (thresholds : List Int) (percentage : Int) (st : ScrollState) :
    ScrollState :=
  thresholds.foldl
    (fun acc threshold =>
      if (decide (threshold ≤ percentage) && !(acc.reached.contains threshold)) = true then
        { reached := threshold :: acc.reached, fired := acc.fired ++ [threshold] }
      else acc)
    st

/-- A whole page load: a sequence of scroll-handler passes at the given
rounded percentages, starting from the empty `reached` set. -/
def runScrollPasses (thresholds : List Int) (ps : List Int) : ScrollState :=
  ps.foldl (fun st p => handleScroll thresholds p st) ⟨[], []⟩

/-- The lazy-attach state of `setupScrollTracking`: the scroll state plus
the `scrollEventAttached` flag. -/
structure ScrollSetupState where
  scroll : ScrollState
  scrollEventAttached : Bool

/-- `attachScrollHandler`: attach the scroll listener once, and run
`handleScroll()` immediately at the current rounded percentage. -/
def attachScrollHandler (thresholds : List Int) (pNow : Int) (st : ScrollSetupState) :
    ScrollSetupState :=
  if st.scrollEventAttached = true then st
  else { scroll := handleScroll thresholds pNow st.scroll, scrollEventAttached := true }

/-- `Math.round` on the exact (rational) percentage. -/
def jsRound (q : Rat) : Int := Int.floor (q + 1 / 2)

/-- The deferred initial check (`setTimeout` callback): attach the handler
only if the page's exact scroll percentage at check time is below the
constant 25. -/
def deferredInitialCheck (thresholds : List Int) (initialPercentage : Rat)
    (st : ScrollSetupState) : ScrollSetupState :=
  if initialPercentage < 25 then
    attachScrollHandler thresholds (jsRound initialPercentage) st
  else st

/-- The running maximum of the rounded percentages seen so far (`none`
before any pass), used to state the scroll-tracking invariant. -/
def optMax (m : Option Int) (p : Int) : Int :=
  match m with
  | none => p
  | some mm => max mm p

/-- The scroll-tracking invariant after any number of handler passes whose
running maximum percentage is `m`: the `reached` set holds exactly the
configured thresholds at or below the high-water mark, the fired log is
strictly ascending, and every fired threshold is bounded by the mark. -/
def scrollInv (thresholds : List Int) (st : ScrollState) (m : Option Int) : Prop :=
  (∀ t : Int, st.reached.contains t = true
    ↔ (t ∈ thresholds ∧ ∃ mm, m = some mm ∧ t ≤ mm))
  ∧ List.Pairwise (fun a b => a < b) st.fired
  ∧ (∀ a ∈ st.fired, ∃ mm, m = some mm ∧ a ≤ mm)

/-! ## Theorems: event-name sanitization -/

theorem map_fixed_of_mem {α : Type} {f : α → α} {l : List α}
    (h : ∀ c ∈ l, f c = c) : l.map f = l := by
  induction l with
  | nil => rfl
  | cons a rest ih =>
    simp only [List.map_cons]
    rw [h a (List.mem_cons_self a rest), ih (fun c hc => h c (List.mem_cons_of_mem a hc))]

theorem mem_replaceDisallowed {c : Char} {l : List Char}
    (h : c ∈ replaceDisallowed l) : isAllowedChar c = true := by
  simp only [replaceDisallowed, List.mem_map] at h
  obtain ⟨a, _, ha⟩ := h
  rcases hc : isAllowedChar a with _ | _
  · rw [hc] at ha
    simp only [Bool.false_eq_true, if_false] at ha
    rw [← ha]
    decide
  · rw [hc] at ha
    simp only [if_pos] at ha
    rw [← ha]
    exact hc

theorem mem_collapseUnderscores {c : Char} {l : List Char}
    (h : c ∈ collapseUnderscores l) : c ∈ l := by
  induction l with
  | nil => simp [collapseUnderscores] at h
  | cons a rest ih =>
    simp only [collapseUnderscores] at h
    split at h
    · exact List.mem_cons_of_mem a (ih h)
    · rcases List.mem_cons.mp h with h1 | h2
      · rw [h1]; exact List.mem_cons_self a rest
      · exact List.mem_cons_of_mem a (ih h2)

theorem collapseUnderscores_noDoubled (l : List Char) :
    noDoubledUnderscore (collapseUnderscores l) := by
  induction l with
  | nil => exact List.chain'_nil
  | cons a rest ih =>
    simp only [collapseUnderscores]
    split
    · exact ih
    · rename_i hb
      unfold noDoubledUnderscore
      rw [List.chain'_cons']
      refine ⟨?_, ih⟩
      intro y hy h2
      apply hb
      rw [Option.mem_def] at hy
      rw [Bool.and_eq_true, decide_eq_true_eq, beq_iff_eq, hy, h2.2]
      exact ⟨h2.1, rfl⟩

theorem collapseUnderscores_eq_self {l : List Char}
    (h : noDoubledUnderscore l) : collapseUnderscores l = l := by
  induction l with
  | nil => rfl
  | cons a rest ih =>
    unfold noDoubledUnderscore at h
    rw [List.chain'_cons'] at h
    simp only [collapseUnderscores]
    rw [ih h.2]
    split
    · rename_i hb
      exfalso
      simp only [Bool.and_eq_true, decide_eq_true_eq, beq_iff_eq] at hb
      exact (h.1 '_' (by rw [Option.mem_def]; exact hb.2)) ⟨hb.1, rfl⟩
    · rfl

theorem dropWhile_eq_self_of_not {p : Char → Bool} {l : List Char}
    (h : ∀ c ∈ l, p c = false) : l.dropWhile p = l := by
  cases l with
  | nil => rfl
  | cons a rest =>
    rw [List.dropWhile_cons, h a (List.mem_cons_self a rest)]
    simp

theorem jsTrim_eq_self {l : List Char} (h : ∀ c ∈ l, isJsSpace c = false) :
    jsTrim l = l := by
  rw [jsTrim, dropWhile_eq_self_of_not h, dropWhile_eq_self_of_not
    (fun c hc => h c (List.mem_reverse.mp hc)), List.reverse_reverse]

theorem allowed_not_space {c : Char} (h : isAllowedChar c = true) :
    isJsSpace c = false := by
  rcases hs : isJsSpace c with _ | _
  · rfl
  · exfalso
    unfold isJsSpace at hs
    simp only [Bool.or_eq_true, decide_eq_true_eq] at hs
    rcases hs with ((((((h1 | h1) | h1) | h1) | h1) | h1) | h1) <;>
      (subst h1; exact absurd h (by decide))

theorem sanitizeEventName_eq_collapse (l : List Char) :
    sanitizeEventName l = collapseUnderscores (replaceDisallowed (l.map jsToLower)) := by
  rw [sanitizeEventName]
  exact jsTrim_eq_self (fun c hc =>
    allowed_not_space (mem_replaceDisallowed (mem_collapseUnderscores hc)))

theorem sanitizeEventName_chars {c : Char} {l : List Char}
    (h : c ∈ sanitizeEventName l) : isAllowedChar c = true := by
  rw [sanitizeEventName_eq_collapse] at h
  exact mem_replaceDisallowed (mem_collapseUnderscores h)

theorem sanitizeEventName_noDoubled (l : List Char) :
    noDoubledUnderscore (sanitizeEventName l) := by
  rw [sanitizeEventName_eq_collapse]
  exact collapseUnderscores_noDoubled _

theorem jsToLower_fixed {c : Char} (h : isAllowedChar c = true) :
    jsToLower c = c := by
  rw [jsToLower, if_neg]
  rintro ⟨hA, hZ⟩
  simp only [isAllowedChar, Bool.or_eq_true, Bool.and_eq_true, decide_eq_true_eq] at h
  rcases h with (⟨ha, _⟩ | ⟨_, h9⟩) | hu
  · exact absurd (le_trans ha hZ) (by decide)
  · exact absurd (le_trans hA h9) (by decide)
  · rw [hu] at hZ; exact absurd hZ (by decide)

theorem replaceDisallowed_fixed {l : List Char}
    (h : ∀ c ∈ l, isAllowedChar c = true) : replaceDisallowed l = l := by
  rw [replaceDisallowed]
  exact map_fixed_of_mem (fun c hc => by rw [h c hc]; simp)

/-- C3: sanitization is idempotent, and its output contains only characters
of the class `[a-z0-9_]`, with no two consecutive underscores. -/
theorem c3_sanitize_idempotent (l : List Char) :
    sanitizeEventName (sanitizeEventName l) = sanitizeEventName l ∧
      (∀ c ∈ sanitizeEventName l, isAllowedChar c = true) ∧
      noDoubledUnderscore (sanitizeEventName l) := by
  refine ⟨?_, fun c hc => sanitizeEventName_chars hc, sanitizeEventName_noDoubled l⟩
  rw [sanitizeEventName]
  rw [map_fixed_of_mem (fun c hc => jsToLower_fixed (sanitizeEventName_chars hc))]
  rw [replaceDisallowed_fixed (fun c hc => sanitizeEventName_chars hc)]
  rw [collapseUnderscores_eq_self (sanitizeEventName_noDoubled l)]
  exact jsTrim_eq_self (fun c hc => allowed_not_space (sanitizeEventName_chars hc))

/-- C2 (counterexample): sanitization does not remove leading or trailing
underscores — `.trim()` removes only white space, and after the character
replacement no white space remains.  Sanitizing the string `"!a"` yields
`"_a"`, which starts with an underscore. -/
theorem c2_sanitize_counterexample :
    sanitizeEventName ['!', 'a'] = ['_', 'a'] ∧
      (sanitizeEventName ['!', 'a']).head? = some '_' := by
  exact ⟨rfl, rfl⟩

/-- C2 (amended): for every input string, `sanitizeEventName` returns a
string containing only lowercase ascii letters, digits and underscores,
with every run of underscores collapsed to a single underscore; leading
and trailing underscores are kept (only surrounding white space would be
trimmed, and none remains after replacement). -/
theorem c2_sanitize_charclass (l : List Char) :
    (∀ c ∈ sanitizeEventName l, isAllowedChar c = true) ∧
      noDoubledUnderscore (sanitizeEventName l) := by
  exact ⟨fun c hc => sanitizeEventName_chars hc, sanitizeEventName_noDoubled l⟩

/-! ## Theorems: configuration merge -/

theorem mergeConfig_eq (d u : JSVal) :
    mergeConfig d u = JSVal.obj (mergeEntries d (ownEntries d) (ownEntries u)) := by
  rw [mergeConfig]
  simp only [dite_eq_ite]
  congr 1
  have key : ∀ (l : List (Subtype (fun p => p ∈ ownEntries u)))
      (merged : List (String × JSVal)),
      (l.foldl (fun merged p =>
        if typeofObject p.1.2 = true ∧ isJsArray p.1.2 = false then
          setKey merged p.1.1 (mergeConfig (jsOrElseEmptyObj (getProp d p.1.1)) p.1.2)
        else setKey merged p.1.1 p.1.2) merged)
        = mergeEntries d merged (l.map Subtype.val) := by
    intro l
    induction l with
    | nil => intro merged; rfl
    | cons p rest ih =>
      intro merged
      rcases p with ⟨⟨k, v⟩, hp⟩
      simp only [List.foldl_cons, List.map_cons]
      rw [ih]
      simp only [mergeEntries, mergedValue]
      by_cases hc : typeofObject v = true ∧ isJsArray v = false
      · rw [if_pos hc, if_pos hc]
      · rw [if_neg hc, if_neg hc]
  rw [key, List.attach_map_subtype_val]

theorem mergeConfig_null (d : JSVal) :
    mergeConfig d JSVal.null = JSVal.obj (ownEntries d) := by
  rw [mergeConfig_eq]; rfl

theorem jsLookup_setKey_self (l : List (String × JSVal)) (k : String) (v : JSVal) :
    jsLookup (setKey l k v) k = some v := by
  induction l with
  | nil => simp [setKey, jsLookup]
  | cons p rest ih =>
    rcases p with ⟨k2, v2⟩
    simp only [setKey]
    by_cases hk : k2 = k
    · rw [if_pos hk]; simp [jsLookup, hk]
    · rw [if_neg hk]; simp [jsLookup, hk, ih]

theorem jsLookup_setKey_ne (l : List (String × JSVal)) (k k2 : String) (v : JSVal)
    (h : k2 ≠ k) : jsLookup (setKey l k v) k2 = jsLookup l k2 := by
  induction l with
  | nil =>
    simp only [setKey, jsLookup]
    rw [if_neg (fun h2 => h h2.symm)]
  | cons p rest ih =>
    rcases p with ⟨k3, v3⟩
    simp only [setKey]
    by_cases hk : k3 = k
    · rw [if_pos hk]
      subst hk
      simp only [jsLookup]
      rw [if_neg (fun h2 => h h2.symm), if_neg (fun h2 => h h2.symm)]
    · rw [if_neg hk]
      simp only [jsLookup]
      by_cases h3 : k3 = k2
      · rw [if_pos h3, if_pos h3]
      · rw [if_neg h3, if_neg h3, ih]

theorem mergeEntries_lookup_notmem (d : JSVal) (k : String) :
    ∀ (entries : List (String × JSVal)), (∀ p ∈ entries, p.1 ≠ k) →
      ∀ merged, jsLookup (mergeEntries d merged entries) k = jsLookup merged k := by
  intro entries
  induction entries with
  | nil => intro _ merged; rfl
  | cons p rest ih =>
    intro h merged
    rcases p with ⟨k2, v⟩
    simp only [mergeEntries]
    rw [ih (fun q hq => h q (List.mem_cons_of_mem _ hq)) _,
      jsLookup_setKey_ne _ _ _ _ (Ne.symm (h (k2, v) (List.mem_cons_self _ _)))]

theorem jsLookup_eq_none_keys (k : String) :
    ∀ (l : List (String × JSVal)), jsLookup l k = none → ∀ p ∈ l, p.1 ≠ k := by
  intro l
  induction l with
  | nil => intro _ p hp; simp at hp
  | cons q rest ih =>
    intro h p hp
    rcases q with ⟨k2, v2⟩
    simp only [jsLookup] at h
    by_cases hk : k2 = k
    · rw [if_pos hk] at h; exact absurd h (by simp)
    · rw [if_neg hk] at h
      rcases List.mem_cons.mp hp with h1 | h2
      · rw [h1]; exact hk
      · exact ih h p h2

theorem mem_keys_of_mem {p : String × JSVal} {l : List (String × JSVal)}
    (h : p ∈ l) : p.1 ∈ l.map Prod.fst :=
  List.mem_map.mpr ⟨p, h, rfl⟩

theorem mergeEntries_lookup_mem (d : JSVal) (k : String) (v : JSVal) :
    ∀ (entries : List (String × JSVal)), (entries.map Prod.fst).Nodup →
      (k, v) ∈ entries →
      ∀ merged, jsLookup (mergeEntries d merged entries) k = some (mergedValue d k v) := by
  intro entries
  induction entries with
  | nil => intro _ hmem; simp at hmem
  | cons p rest ih =>
    intro hnd hmem merged
    rcases p with ⟨k2, v2⟩
    simp only [List.map_cons, List.nodup_cons] at hnd
    rcases List.mem_cons.mp hmem with h1 | h2
    · have hk : k2 = k := ((Prod.mk.injEq _ _ _ _).mp h1).1.symm
      have hv : v2 = v := ((Prod.mk.injEq _ _ _ _).mp h1).2.symm
      simp only [mergeEntries]
      rw [hk, hv]
      have hrest : ∀ q ∈ rest, q.1 ≠ k := by
        intro q hq h2
        exact hnd.1 ((h2.trans hk.symm) ▸ mem_keys_of_mem hq)
      rw [mergeEntries_lookup_notmem d k rest hrest _, jsLookup_setKey_self]
    · simp only [mergeEntries]
      exact ih hnd.2 h2 _

/-- C4: for object-valued defaults and overrides, the merge keeps every
default key absent from the overrides; an override key holding a non-array
object is merged recursively against the corresponding default sub-object
(an absent default acting as the empty object); every other override value
(scalar or array) replaces the default wholesale. -/
theorem c4_merge_config (dkvs ukvs : List (String × JSVal))
    (hu : (ukvs.map Prod.fst).Nodup) (k : String) :
    (jsLookup ukvs k = none →
      getProp (mergeConfig (JSVal.obj dkvs) (JSVal.obj ukvs)) k = jsLookup dkvs k)
    ∧ (∀ v, (k, v) ∈ ukvs → typeofObject v = true → isJsArray v = false →
        (jsLookup dkvs k = none ∨ (∃ f, jsLookup dkvs k = some (JSVal.obj f))) →
        getProp (mergeConfig (JSVal.obj dkvs) (JSVal.obj ukvs)) k
          = some (mergeConfig ((jsLookup dkvs k).getD (JSVal.obj [])) v))
    ∧ (∀ v, (k, v) ∈ ukvs → ¬(typeofObject v = true ∧ isJsArray v = false) →
        getProp (mergeConfig (JSVal.obj dkvs) (JSVal.obj ukvs)) k = some v) := by
  have hshape : getProp (mergeConfig (JSVal.obj dkvs) (JSVal.obj ukvs)) k
      = jsLookup (mergeEntries (JSVal.obj dkvs) dkvs ukvs) k := by
    rw [mergeConfig_eq]; rfl
  refine ⟨?_, ?_, ?_⟩
  · intro habs
    rw [hshape]
    exact mergeEntries_lookup_notmem _ k ukvs (jsLookup_eq_none_keys k ukvs habs) dkvs
  · intro v hmem hto hta hdef
    rw [hshape, mergeEntries_lookup_mem _ k v ukvs hu hmem dkvs]
    congr 1
    rw [mergedValue, if_pos ⟨hto, hta⟩]
    congr 1
    show jsOrElseEmptyObj (jsLookup dkvs k) = (jsLookup dkvs k).getD (JSVal.obj [])
    rcases hdef with h1 | ⟨f, h2⟩
    · rw [h1]; rfl
    · rw [h2]; rfl
  · intro v hmem hneg
    rw [hshape, mergeEntries_lookup_mem _ k v ukvs hu hmem dkvs]
    rw [mergedValue, if_neg hneg]

theorem getProp_mergeConfig_obj (dkvs ukvs : List (String × JSVal)) (k : String) :
    getProp (mergeConfig (JSVal.obj dkvs) (JSVal.obj ukvs)) k
      = jsLookup (mergeEntries (JSVal.obj dkvs) dkvs ukvs) k := by
  rw [mergeConfig_eq]; rfl

/-- C4 (witness): a concrete merge exercising all three branches of
`c4_merge_config`: a kept default, a recursively merged sub-object, and a
wholesale-replaced array. -/
theorem c4_merge_config_witness :
    getProp (mergeConfig
        (JSVal.obj [((r"a"), JSVal.num 1), ((r"o"), JSVal.obj [((r"x"), JSVal.num 2)])])
        (JSVal.obj [((r"o"), JSVal.obj [((r"y"), JSVal.num 3)]),
          ((r"s"), JSVal.arr [JSVal.num 9])])) (r"a") = some (JSVal.num 1)
    ∧ getProp (mergeConfig
        (JSVal.obj [((r"a"), JSVal.num 1), ((r"o"), JSVal.obj [((r"x"), JSVal.num 2)])])
        (JSVal.obj [((r"o"), JSVal.obj [((r"y"), JSVal.num 3)]),
          ((r"s"), JSVal.arr [JSVal.num 9])])) (r"o")
      = some (JSVal.obj [((r"x"), JSVal.num 2), ((r"y"), JSVal.num 3)])
    ∧ getProp (mergeConfig
        (JSVal.obj [((r"a"), JSVal.num 1), ((r"o"), JSVal.obj [((r"x"), JSVal.num 2)])])
        (JSVal.obj [((r"o"), JSVal.obj [((r"y"), JSVal.num 3)]),
          ((r"s"), JSVal.arr [JSVal.num 9])])) (r"s")
      = some (JSVal.arr [JSVal.num 9]) := by
  have hbase := c4_merge_config
    [((r"a"), JSVal.num 1), ((r"o"), JSVal.obj [((r"x"), JSVal.num 2)])]
    [((r"o"), JSVal.obj [((r"y"), JSVal.num 3)]), ((r"s"), JSVal.arr [JSVal.num 9])]
    (by decide)
  refine ⟨?_, ?_, ?_⟩
  · exact (hbase (r"a")).1 rfl
  · have h := (hbase (r"o")).2.1
      (JSVal.obj [((r"y"), JSVal.num 3)]) (List.mem_cons_self _ _) rfl rfl
      (Or.inr ⟨[((r"x"), JSVal.num 2)], rfl⟩)
    rw [h, mergeConfig_eq]
    rfl
  · exact (hbase (r"s")).2.2 (JSVal.arr [JSVal.num 9])
      (List.mem_cons_of_mem _ (List.mem_cons_self _ _))
      (fun hc => by simpa [isJsArray] using hc.2)

/-- C10 (counterexample): a `null` override does not return the default
sub-value unchanged when that default is not an object: with defaults
`{a: 5}` and overrides `{a: null}` the merge yields `{a: {}}` (the object
spread of the number `5`), not `{a: 5}`. -/
theorem c10_null_override_counterexample :
    getProp (mergeConfig (JSVal.obj [((r"a"), JSVal.num 5)])
        (JSVal.obj [((r"a"), JSVal.null)])) (r"a") = some (JSVal.obj [])
    ∧ (JSVal.obj [] = JSVal.num 5 → False) := by
  constructor
  · rw [getProp_mergeConfig_obj]
    simp only [mergeEntries, mergedValue]
    rw [if_pos ⟨rfl, rfl⟩, mergeConfig_null]
    rfl
  · intro h
    exact nomatch h

/-- C10 (amended): a `null` override value is treated as a non-array object
with no own keys, so the merge at that key returns the plain object built
from the own enumerable entries of `default[key] || {}`: the default
unchanged when it is a plain object, the empty object when the default is
absent or falsy, the index-keyed spread of a truthy string or array
default (a truthy scalar spreads to the empty object) — and never `null`
itself. -/
theorem c10_null_override_amended (dkvs ukvs : List (String × JSVal))
    (hu : (ukvs.map Prod.fst).Nodup) (k : String) (hk : (k, JSVal.null) ∈ ukvs) :
    getProp (mergeConfig (JSVal.obj dkvs) (JSVal.obj ukvs)) k
      = some (JSVal.obj (ownEntries (jsOrElseEmptyObj (jsLookup dkvs k))))
    ∧ (∀ f, jsLookup dkvs k = some (JSVal.obj f) →
      getProp (mergeConfig (JSVal.obj dkvs) (JSVal.obj ukvs)) k = some (JSVal.obj f))
    ∧ (jsLookup dkvs k = none →
      getProp (mergeConfig (JSVal.obj dkvs) (JSVal.obj ukvs)) k = some (JSVal.obj []))
    ∧ (∀ cs, jsLookup dkvs k = some (JSVal.str cs) → cs ≠ [] →
      getProp (mergeConfig (JSVal.obj dkvs) (JSVal.obj ukvs)) k
        = some (JSVal.obj (strEntries 0 cs)))
    ∧ (∀ w, getProp (mergeConfig (JSVal.obj dkvs) (JSVal.obj ukvs)) k = some w →
      w ≠ JSVal.null) := by
  have hmain : getProp (mergeConfig (JSVal.obj dkvs) (JSVal.obj ukvs)) k
      = some (mergedValue (JSVal.obj dkvs) k JSVal.null) := by
    rw [getProp_mergeConfig_obj]
    exact mergeEntries_lookup_mem _ k JSVal.null ukvs hu hk dkvs
  have hv2 : mergedValue (JSVal.obj dkvs) k JSVal.null
      = JSVal.obj (ownEntries (jsOrElseEmptyObj (jsLookup dkvs k))) := by
    rw [mergedValue, if_pos ⟨rfl, rfl⟩, mergeConfig_null]
    rfl
  refine ⟨by rw [hmain, hv2], ?_, ?_, ?_, ?_⟩
  · intro f hf
    rw [hmain, hv2, hf]
    rfl
  · intro hf
    rw [hmain, hv2, hf]
    rfl
  · intro cs hf hcs
    rw [hmain, hv2, hf]
    have ht : truthy (JSVal.str cs) = true := decide_eq_true hcs
    simp only [jsOrElseEmptyObj, if_pos ht]
    rfl
  · intro w hw
    rw [hmain, hv2] at hw
    have hw3 := Option.some_inj.mp hw
    subst hw3
    intro h
    exact nomatch h

/-- C10 (amended, witness): with an object default `{o: {x: 2}}` the `null`
override keeps the default object; with no default it yields `{}`; with a
truthy string default `{a: "ab"}` it yields the character-indexed spread
`{0: "a", 1: "b"}`. -/
theorem c10_null_override_amended_witness :
    getProp (mergeConfig (JSVal.obj [((r"o"), JSVal.obj [((r"x"), JSVal.num 2)])])
        (JSVal.obj [((r"o"), JSVal.null)])) (r"o")
      = some (JSVal.obj [((r"x"), JSVal.num 2)])
    ∧ getProp (mergeConfig (JSVal.obj []) (JSVal.obj [((r"o"), JSVal.null)])) (r"o")
      = some (JSVal.obj [])
    ∧ getProp (mergeConfig (JSVal.obj [((r"a"), JSVal.str ['a', 'b'])])
        (JSVal.obj [((r"a"), JSVal.null)])) (r"a")
      = some (JSVal.obj [((r"0"), JSVal.str ['a']), ((r"1"), JSVal.str ['b'])]) := by
  refine ⟨?_, ?_, ?_⟩
  · exact (c10_null_override_amended _ _ (by decide) _ (List.mem_cons_self _ _)).2.1 _ rfl
  · exact (c10_null_override_amended _ _ (by decide) _ (List.mem_cons_self _ _)).2.2.1 rfl
  · have h := (c10_null_override_amended [((r"a"), JSVal.str ['a', 'b'])]
      [((r"a"), JSVal.null)] (by decide) (r"a") (List.mem_cons_self _ _)).2.2.2.1
      ['a', 'b'] rfl (by decide)
    rw [h]
    rfl

/-! ## Theorems: dispatcher and readiness gate -/

theorem logEventCall_ok (env : CollectorEnv) (s : HelperState) (event : JSVal)
    (properties : List (String × JSVal)) :
    logEventCall env s event properties
      = Except.ok (logEvent env s event properties) := by
  rw [logEvent]
  rcases hc : logEventCall env s event properties with e | s2
  · exfalso
    rw [logEventCall] at hc
    split at hc
    · exact nomatch hc
    · split at hc <;> exact nomatch hc
  · rfl

theorem logEvent_notReady {env : CollectorEnv} {s : HelperState}
    (h : s.initialized = false) (event : JSVal) (properties : List (String × JSVal)) :
    logEvent env s event properties
      = { s with eventQueue := s.eventQueue ++ [⟨event, properties⟩] } := by
  rw [logEvent, logEventCall, if_pos h]

theorem logEvent_ready_ok {env : CollectorEnv} {s : HelperState}
    (h : s.initialized = true) (hok : env.trackThrows s.now = false)
    {event : JSVal} {nm : List Char} (hsan : sanitizeEventNameJS event = Except.ok nm)
    (properties : List (String × JSVal)) :
    logEvent env s event properties
      = { s with
          tracked := s.tracked ++ [(nm, enhanceProperties properties s.now)]
          now := s.now + 1 } := by
  rw [logEvent, logEventCall, if_neg (by rw [h]; exact fun hc => nomatch hc)]
  rw [logEventBody, hsan]
  simp [hok]

theorem logEvent_ready_err {env : CollectorEnv} {s : HelperState}
    (h : s.initialized = true) {event : JSVal} {e : JsError}
    (hsan : sanitizeEventNameJS event = Except.error e)
    (properties : List (String × JSVal)) :
    logEvent env s event properties = { s with now := s.now + 1 } := by
  rw [logEvent, logEventCall, if_neg (by rw [h]; exact fun hc => nomatch hc)]
  rw [logEventBody, hsan]

/-- C5: in every gate state and for every event value, collector
behaviour and properties object, a `logEvent` call returns normally: no
exception reaches the caller, whether the name fails to sanitize (a
non-string event), the collector's `track` throws, or the event is merely
queued. -/
theorem c5_logEvent_never_throws (env : CollectorEnv) (s : HelperState) (event : JSVal)
    (properties : List (String × JSVal)) :
    ∃ s2, logEventCall env s event properties = Except.ok s2 :=
  ⟨logEvent env s event properties, logEventCall_ok env s event properties⟩

/-- C9: after readiness, a successful dispatch forwards exactly the
caller's properties with the key `timestamp` bound to the freshly captured
dispatch-time ISO string: a caller-supplied `timestamp` is overridden and
every other key keeps the caller's value. -/
theorem c9_timestamp_enrichment (env : CollectorEnv) (s : HelperState) (nm : List Char)
    (properties : List (String × JSVal))
    (hready : s.initialized = true) (hok : env.trackThrows s.now = false) :
    (logEvent env s (JSVal.str nm) properties).tracked
      = s.tracked ++ [(sanitizeEventName nm, enhanceProperties properties s.now)]
    ∧ jsLookup (enhanceProperties properties s.now) (r"timestamp")
      = some (JSVal.str (jsDateToISOString s.now))
    ∧ (∀ k, k ≠ (r"timestamp") →
        jsLookup (enhanceProperties properties s.now) k = jsLookup properties k) := by
  refine ⟨?_, jsLookup_setKey_self _ _ _, fun k hk => jsLookup_setKey_ne _ _ _ _ hk⟩
  rw [@logEvent_ready_ok env s hready hok (JSVal.str nm) (sanitizeEventName nm) rfl properties]

/-- C9 (witness): a concrete dispatch where the caller supplied a
`timestamp` of its own, which is overridden, while the other key is kept. -/
theorem c9_timestamp_enrichment_witness :
    (logEvent ⟨fun _ => false⟩ ⟨true, [], [], 0⟩ (JSVal.str ((r"Sign Up!").data))
        [((r"timestamp"), JSVal.str []), ((r"x"), JSVal.num 1)]).tracked
      = [(((r"sign_up_").data),
          [((r"timestamp"), JSVal.str ((r"0Z").data)), ((r"x"), JSVal.num 1)])]
    ∧ jsLookup (enhanceProperties [((r"timestamp"), JSVal.str []), ((r"x"), JSVal.num 1)] 0)
        (r"x") = some (JSVal.num 1) := by
  have h := c9_timestamp_enrichment ⟨fun _ => false⟩ ⟨true, [], [], 0⟩ ((r"Sign Up!").data)
    [((r"timestamp"), JSVal.str []), ((r"x"), JSVal.num 1)] rfl rfl
  constructor
  · rw [h.1]
    rfl
  · exact h.2.2 (r"x") (by decide)

theorem drainLoop_spec (env : CollectorEnv) (hEnv : ∀ t, env.trackThrows t = false) :
    ∀ (q : List QueuedEvent) (tr : List (List Char × List (String × JSVal))) (n : Nat),
      drainLoop env q.length ⟨true, q, tr, n⟩
        = ⟨true, [], tr ++ dispatches n q, n + q.length⟩ := by
  intro q
  induction q with
  | nil =>
    intro tr n
    simp [drainLoop, dispatches]
  | cons qe rest ih =>
    intro tr n
    simp only [List.length_cons, drainLoop]
    rcases hsan : sanitizeEventNameJS qe.event with e | nm
    · rw [logEvent_ready_err rfl hsan]
      rw [ih tr (n + 1)]
      have hdis : dispatches n (qe :: rest) = dispatches (n + 1) rest := by
        simp only [dispatches, hsan]
      rw [hdis]
      have harith : n + 1 + rest.length = n + (rest.length + 1) := by omega
      rw [harith]
    · rw [logEvent_ready_ok rfl (hEnv n) hsan]
      rw [ih (tr ++ [(nm, enhanceProperties qe.properties n)]) (n + 1)]
      have hdis : dispatches n (qe :: rest)
          = (nm, enhanceProperties qe.properties n) :: dispatches (n + 1) rest := by
        simp only [dispatches, hsan]
      rw [hdis]
      rw [List.append_assoc]
      have harith : n + 1 + rest.length = n + (rest.length + 1) := by omega
      rw [harith]
      rfl

theorem becomeReady_spec (env : CollectorEnv) (hEnv : ∀ t, env.trackThrows t = false)
    (q : List QueuedEvent) (tr : List (List Char × List (String × JSVal))) (n : Nat) :
    becomeReady env ⟨false, q, tr, n⟩ = ⟨true, [], tr ++ dispatches n q, n + q.length⟩ := by
  rw [becomeReady]
  exact drainLoop_spec env hEnv q tr n

theorem applyLogs_notReady (env : CollectorEnv) :
    ∀ (calls : List (List Char × List (String × JSVal)))
      (q : List QueuedEvent) (tr : List (List Char × List (String × JSVal))) (n : Nat),
      applyLogs env calls ⟨false, q, tr, n⟩
        = ⟨false, q ++ calls.map (fun c => ⟨JSVal.str c.1, c.2⟩), tr, n⟩ := by
  intro calls
  induction calls with
  | nil => intro q tr n; simp [applyLogs]
  | cons c rest ih =>
    intro q tr n
    simp only [applyLogs, List.foldl_cons]
    rw [logEvent_notReady rfl]
    have hstep := ih (q ++ [⟨JSVal.str c.1, c.2⟩]) tr n
    rw [applyLogs] at hstep
    rw [hstep]
    simp [List.append_assoc]

theorem dispatches_map_calls :
    ∀ (calls : List (List Char × List (String × JSVal))) (t : Nat),
      dispatches t (calls.map fun c => (⟨JSVal.str c.1, c.2⟩ : QueuedEvent))
        = (List.enumFrom t calls).map
            (fun ic => (sanitizeEventName ic.2.1, enhanceProperties ic.2.2 ic.1)) := by
  intro calls
  induction calls with
  | nil => intro t; rfl
  | cons c rest ih =>
    intro t
    simp only [List.map_cons, dispatches, sanitizeEventNameJS, List.enumFrom]
    rw [ih (t + 1)]

theorem waitForUmamiGo_ready (env : CollectorEnv) (present : Nat → Bool) (n : Nat) :
    ∀ (fuel attempts : Nat) (s : HelperState),
      (∃ j, attempts < j ∧ j ≤ attempts + fuel ∧ j ≤ n ∧ present j = true) →
      ∃ polls, waitForUmamiGo env present n fuel attempts s = (becomeReady env s, polls)
        ∧ polls ≤ n := by
  intro fuel
  induction fuel with
  | zero =>
    rintro attempts s ⟨j, h1, h2, _, _⟩
    omega
  | succ fuel ih =>
    rintro attempts s ⟨j, h1, h2, h3, h4⟩
    simp only [waitForUmamiGo]
    by_cases hp : present (attempts + 1) = true
    · rw [if_pos hp]
      exact ⟨attempts + 1, rfl, by omega⟩
    · rw [if_neg hp]
      have hj : attempts + 1 < j := by
        rcases Nat.lt_or_ge (attempts + 1) j with hlt | hge
        · exact hlt
        · have hje : j = attempts + 1 := by omega
          rw [hje] at h4
          exact absurd h4 hp
      rw [if_neg (by omega : ¬ n ≤ attempts + 1)]
      exact ih (attempts + 1) s ⟨j, hj, by omega, h3, h4⟩

/-- C1: events logged while the gate is not yet ready are queued, and once
the collector becomes present within the retry budget every queued event is
forwarded to the collector exactly once, in the original call order, with
none dropped: the `track` log equals the call list in order, and the queue
is empty afterwards. -/
theorem c1_queue_fifo (env : CollectorEnv) (present : Nat → Bool) (n : Nat)
    (calls : List (List Char × List (String × JSVal)))
    (hEnv : ∀ t, env.trackThrows t = false)
    (hpresent : ∃ j, 1 ≤ j ∧ j ≤ n ∧ present j = true) :
    (waitForUmami env present n (applyLogs env calls ⟨false, [], [], 0⟩)).1.tracked
      = (List.enumFrom 0 calls).map
          (fun ic => (sanitizeEventName ic.2.1, enhanceProperties ic.2.2 ic.1))
    ∧ (waitForUmami env present n (applyLogs env calls ⟨false, [], [], 0⟩)).1.eventQueue
      = [] := by
  obtain ⟨j, hj1, hj2, hj4⟩ := hpresent
  rw [waitForUmami, applyLogs_notReady env calls [] [] 0]
  obtain ⟨polls, hrun, _⟩ := waitForUmamiGo_ready env present n (n + 1) 0
    ⟨false, [] ++ calls.map (fun c => ⟨JSVal.str c.1, c.2⟩), [], 0⟩
    ⟨j, by omega, by omega, hj2, hj4⟩
  rw [hrun]
  rw [List.nil_append]
  rw [becomeReady_spec env hEnv]
  rw [dispatches_map_calls calls 0]
  exact ⟨rfl, rfl⟩

/-- C1 (witness): the spec scenario — `logEvent('Form Submit!!', {form_id: 'x'})`
called pre-readiness, the collector appearing on the second poll of a
three-attempt budget, delivered exactly once as `form_submit` with the
dispatch-time timestamp added. -/
theorem c1_queue_fifo_witness :
    (waitForUmami ⟨fun _ => false⟩ (fun t => t == 2) 3
        (applyLogs ⟨fun _ => false⟩
          [(((r"Form Submit!!").data), [((r"form_id"), JSVal.str ((r"x").data))])]
          ⟨false, [], [], 0⟩)).1.tracked
      = [(((r"form_submit_").data),
          [((r"form_id"), JSVal.str ((r"x").data)),
            ((r"timestamp"), JSVal.str ((r"0Z").data))])] := by
  have h := c1_queue_fifo ⟨fun _ => false⟩ (fun t => t == 2) 3
    [(((r"Form Submit!!").data), [((r"form_id"), JSVal.str ((r"x").data))])]
    (fun t => rfl) ⟨2, by decide, by decide, rfl⟩
  rw [h.1]
  rfl

theorem waitForUmamiGo_exhaust (env : CollectorEnv) (present : Nat → Bool) (n : Nat)
    (hnever : ∀ t, present t = false) :
    ∀ (fuel attempts : Nat) (s : HelperState), 1 ≤ fuel → n ≤ attempts + fuel →
      waitForUmamiGo env present n fuel attempts s = (s, max n (attempts + 1)) := by
  intro fuel
  induction fuel with
  | zero => intro attempts s hf; omega
  | succ fuel ih =>
    intro attempts s _ hle
    simp only [waitForUmamiGo]
    rw [if_neg (by rw [hnever (attempts + 1)]; exact fun hc => nomatch hc)]
    by_cases hn : n ≤ attempts + 1
    · rw [if_pos hn]
      rw [Prod.mk.injEq]
      exact ⟨rfl, by omega⟩
    · rw [if_neg hn]
      rw [ih (attempts + 1) s (by omega) (by omega)]
      rw [Prod.mk.injEq]
      exact ⟨rfl, by omega⟩

/-- C6 (counterexample): with `retryAttempts = 0` and a collector that
never appears, the polling timer still fires once before being cleared —
one poll, which is more than the `retryAttempts` bound of zero polls the
claim allows. -/
theorem c6_gate_exhaustion_counterexample :
    (waitForUmami ⟨fun _ => false⟩ (fun _ => false) 0 ⟨false, [], [], 0⟩).2 = 1
    ∧ ¬((1 : Nat) ≤ 0) := by
  exact ⟨rfl, by decide⟩

/-- C6 (amended): if the collector never becomes present, the polling loop
runs exactly `max retryAttempts 1` callbacks (at most `retryAttempts` polls
whenever `retryAttempts ≥ 1`; one poll fires even when it is `0`) and is
then cancelled for good; the state is untouched, so no `track` call ever
happens; and every later `logEvent` call only enqueues and returns without
an exception. -/
theorem c6_gate_exhaustion (env : CollectorEnv) (present : Nat → Bool) (n : Nat)
    (s : HelperState) (hnever : ∀ t, present t = false)
    (hinit : s.initialized = false) :
    (waitForUmami env present n s).1 = s
    ∧ (waitForUmami env present n s).2 = max n 1
    ∧ (waitForUmami env present n s).1.tracked = s.tracked
    ∧ (∀ event properties,
        logEvent env (waitForUmami env present n s).1 event properties
          = { (waitForUmami env present n s).1 with
              eventQueue := (waitForUmami env present n s).1.eventQueue
                ++ [⟨event, properties⟩] })
    ∧ (∀ event properties,
        logEventCall env (waitForUmami env present n s).1 event properties
          = Except.ok (logEvent env (waitForUmami env present n s).1 event properties)) := by
  have hrun : waitForUmami env present n s = (s, max n 1) := by
    rw [waitForUmami]
    rw [waitForUmamiGo_exhaust env present n hnever (n + 1) 0 s (by omega) (by omega)]
  rw [hrun]
  refine ⟨rfl, rfl, rfl, ?_, ?_⟩
  · intro event properties
    exact logEvent_notReady hinit event properties
  · intro event properties
    exact logEventCall_ok env s event properties

/-- C6 (amended, witness): the default budget of three attempts with an
absent collector — three polls, untouched empty state, and a later call
that only enqueues. -/
theorem c6_gate_exhaustion_witness :
    (waitForUmami ⟨fun _ => false⟩ (fun _ => false) 3 ⟨false, [], [], 0⟩).1
      = ⟨false, [], [], 0⟩
    ∧ (waitForUmami ⟨fun _ => false⟩ (fun _ => false) 3 ⟨false, [], [], 0⟩).2 = 3
    ∧ logEvent ⟨fun _ => false⟩
        (waitForUmami ⟨fun _ => false⟩ (fun _ => false) 3 ⟨false, [], [], 0⟩).1
        (JSVal.str ((r"late").data)) []
      = ⟨false, [⟨JSVal.str ((r"late").data), []⟩], [], 0⟩ := by
  have h := c6_gate_exhaustion ⟨fun _ => false⟩ (fun _ => false) 3 ⟨false, [], [], 0⟩
    (fun t => rfl) rfl
  refine ⟨h.1, ?_, ?_⟩
  · rw [h.2.1]
    rfl
  · rw [h.2.2.2.1 (JSVal.str ((r"late").data)) []]
    rw [h.1]
    rfl

/-! ## Theorems: scroll-depth tracking -/

theorem handleScroll_cons (t2 : Int) (rest : List Int) (p : Int) (st : ScrollState) :
    handleScroll (t2 :: rest) p st
      = handleScroll rest p
          (if (decide (t2 ≤ p) && !(st.reached.contains t2)) = true then
            ⟨t2 :: st.reached, st.fired ++ [t2]⟩
          else st) := by
  rw [handleScroll, handleScroll, List.foldl_cons]

theorem handleScroll_reached (p : Int) :
    ∀ (thresholds : List Int) (st : ScrollState) (t : Int),
      ((handleScroll thresholds p st).reached.contains t = true)
        ↔ (st.reached.contains t = true ∨ (t ∈ thresholds ∧ t ≤ p)) := by
  intro thresholds
  induction thresholds with
  | nil =>
    intro st t
    rw [handleScroll]
    simp
  | cons t2 rest ih =>
    intro st t
    rw [handleScroll_cons]
    by_cases hc : (decide (t2 ≤ p) && !(st.reached.contains t2)) = true
    · rw [if_pos hc]
      rw [ih]
      have ht2p : t2 ≤ p := by
        rw [Bool.and_eq_true] at hc
        exact of_decide_eq_true hc.1
      simp only [List.contains_cons, Bool.or_eq_true, beq_iff_eq, List.mem_cons]
      constructor
      · rintro ((rfl | hcon) | ⟨hm, hle⟩)
        · exact Or.inr ⟨Or.inl rfl, ht2p⟩
        · exact Or.inl hcon
        · exact Or.inr ⟨Or.inr hm, hle⟩
      · rintro (hcon | ⟨(rfl | hm), hle⟩)
        · exact Or.inl (Or.inr hcon)
        · exact Or.inl (Or.inl rfl)
        · exact Or.inr ⟨hm, hle⟩
    · rw [if_neg hc]
      rw [ih]
      simp only [List.mem_cons]
      constructor
      · rintro (hcon | ⟨hm, hle⟩)
        · exact Or.inl hcon
        · exact Or.inr ⟨Or.inr hm, hle⟩
      · rintro (hcon | ⟨(rfl | hm), hle⟩)
        · exact Or.inl hcon
        · left
          rcases hct : st.reached.contains t with _ | _
          · exfalso
            apply hc
            rw [decide_eq_true hle, hct]
            rfl
          · rfl
        · exact Or.inr ⟨hm, hle⟩

theorem handleScroll_fired (p : Int) :
    ∀ (thresholds : List Int), thresholds.Nodup →
      ∀ st, (handleScroll thresholds p st).fired
        = st.fired ++ thresholds.filter (fun t => decide (t ≤ p) && !(st.reached.contains t)) := by
  intro thresholds
  induction thresholds with
  | nil =>
    intro _ st
    rw [handleScroll]
    simp
  | cons t2 rest ih =>
    intro hnd st
    rw [List.nodup_cons] at hnd
    rw [handleScroll_cons, List.filter_cons]
    by_cases hc : (decide (t2 ≤ p) && !(st.reached.contains t2)) = true
    · rw [if_pos hc, if_pos hc, ih hnd.2]
      have hfil : rest.filter (fun t => decide (t ≤ p) &&
            !((⟨t2 :: st.reached, st.fired ++ [t2]⟩ : ScrollState).reached.contains t))
          = rest.filter (fun t => decide (t ≤ p) && !(st.reached.contains t)) := by
        apply List.filter_congr
        intro t ht
        have hne : t ≠ t2 := fun he => hnd.1 (he ▸ ht)
        show (decide (t ≤ p) && !((t2 :: st.reached).contains t)) = _
        rw [List.contains_cons, beq_eq_false_iff_ne.mpr hne, Bool.false_or]
      rw [hfil, List.append_assoc]
      rfl
    · rw [if_neg hc, if_neg hc, ih hnd.2]

theorem handleScroll_inv (thresholds : List Int)
    (hasc : List.Pairwise (fun a b => a < b) thresholds) (p : Int) (st : ScrollState)
    (m : Option Int) (h : scrollInv thresholds st m) :
    scrollInv thresholds (handleScroll thresholds p st) (some (optMax m p)) := by
  have hnd : thresholds.Nodup := hasc.imp (fun hab => ne_of_lt hab)
  obtain ⟨hreach, hpw, hbound⟩ := h
  refine ⟨?_, ?_, ?_⟩
  · intro t
    rw [handleScroll_reached, hreach t]
    constructor
    · rintro (⟨hm, mm, hmm, hle⟩ | ⟨hm, hle⟩)
      · subst hmm
        exact ⟨hm, optMax (some mm) p, rfl, le_trans hle (le_max_left _ _)⟩
      · refine ⟨hm, optMax m p, rfl, ?_⟩
        cases m with
        | none => exact hle
        | some mm => exact le_trans hle (le_max_right _ _)
    · rintro ⟨hm, mm2, hmm2, hle⟩
      have hmm3 : mm2 = optMax m p := (Option.some_inj.mp hmm2).symm
      rw [hmm3] at hle
      cases m with
      | none => exact Or.inr ⟨hm, hle⟩
      | some mm =>
        rcases le_max_iff.mp hle with h1 | h2
        · exact Or.inl ⟨hm, mm, rfl, h1⟩
        · exact Or.inr ⟨hm, h2⟩
  · rw [handleScroll_fired p thresholds hnd st]
    rw [List.pairwise_append]
    refine ⟨hpw, hasc.sublist (List.filter_sublist _), ?_⟩
    intro a ha b hb
    rcases hbound a ha with ⟨mm, hmm, hle⟩
    rw [List.mem_filter] at hb
    obtain ⟨hbth, hbcond⟩ := hb
    rw [Bool.and_eq_true] at hbcond
    have hbcont : st.reached.contains b = false := by
      rcases hcb : st.reached.contains b with _ | _
      · rfl
      · rw [hcb] at hbcond
        exact absurd hbcond.2 (by decide)
    have hnb : ¬(st.reached.contains b = true) := by
      rw [hbcont]
      exact fun hx => nomatch hx
    have hnoex : ¬(b ∈ thresholds ∧ ∃ mm2, m = some mm2 ∧ b ≤ mm2) :=
      fun hx => hnb ((hreach b).mpr hx)
    have hmb : ¬(b ≤ mm) := fun hle2 => hnoex ⟨hbth, mm, hmm, hle2⟩
    omega
  · intro a ha
    rw [handleScroll_fired p thresholds hnd st] at ha
    rcases List.mem_append.mp ha with h1 | h2
    · rcases hbound a h1 with ⟨mm, hmm, hle⟩
      subst hmm
      exact ⟨optMax (some mm) p, rfl, le_trans hle (le_max_left _ _)⟩
    · rw [List.mem_filter] at h2
      have hap : a ≤ p := by
        have h3 := h2.2
        rw [Bool.and_eq_true, decide_eq_true_eq] at h3
        exact h3.1
      refine ⟨optMax m p, rfl, ?_⟩
      cases m with
      | none => exact hap
      | some mm => exact le_trans hap (le_max_right _ _)

theorem runScrollPasses_inv (thresholds : List Int)
    (hasc : List.Pairwise (fun a b => a < b) thresholds) :
    ∀ (ps : List Int) (st : ScrollState) (m : Option Int), scrollInv thresholds st m →
      ∃ m2, scrollInv thresholds
        (ps.foldl (fun st2 p => handleScroll thresholds p st2) st) m2 := by
  intro ps
  induction ps with
  | nil => intro st m h; exact ⟨m, h⟩
  | cons p rest ih =>
    intro st m h
    simp only [List.foldl_cons]
    exact ih _ (some (optMax m p)) (handleScroll_inv thresholds hasc p st m h)

/-- C7: with an ascending configured threshold list, a single
scroll-handler pass at rounded percentage `p` fires exactly the
not-yet-reached thresholds at or below `p`, in configuration (ascending)
order; and across any sequence of passes of a page load the fired log is
strictly ascending — so each threshold fires at most once, in ascending
order. -/
theorem c7_scroll_thresholds (thresholds : List Int)
    (hasc : List.Pairwise (fun a b => a < b) thresholds) :
    (∀ p st, (handleScroll thresholds p st).fired
        = st.fired ++ thresholds.filter (fun t => decide (t ≤ p) && !(st.reached.contains t)))
    ∧ (∀ ps : List Int,
        List.Pairwise (fun a b => a < b) (runScrollPasses thresholds ps).fired) := by
  have hnd : thresholds.Nodup := hasc.imp (fun hab => ne_of_lt hab)
  refine ⟨fun p st => handleScroll_fired p thresholds hnd st, fun ps => ?_⟩
  have hinit : scrollInv thresholds ⟨[], []⟩ none := by
    refine ⟨?_, List.Pairwise.nil, ?_⟩
    · intro t
      constructor
      · intro hx; exact nomatch hx
      · rintro ⟨_, mm, hmm, _⟩; exact nomatch hmm
    · intro a ha; exact absurd ha (List.not_mem_nil a)
  obtain ⟨m2, hinv⟩ := runScrollPasses_inv thresholds hasc ps ⟨[], []⟩ none hinit
  rw [runScrollPasses]
  exact hinv.2.1

/-- C7 (witness): the spec scenario — thresholds 25, 50 and 75 with the
page at 80 percent fire all three, once each, in ascending order, in one
pass; later passes at lower and higher percentages keep the log strictly
ascending. -/
theorem c7_scroll_thresholds_witness :
    (handleScroll [25, 50, 75] 80 ⟨[], []⟩).fired = [25, 50, 75]
    ∧ List.Pairwise (fun a b => a < b)
        (runScrollPasses [25, 50, 75] [80, 30, 90]).fired := by
  have h := c7_scroll_thresholds [25, 50, 75] (by decide)
  constructor
  · rw [h.1 80 ⟨[], []⟩]
    rfl
  · exact h.2 [80, 30, 90]

/-- C8 (counterexample): the deferred initial check compares against the
constant 25, not against the lowest configured threshold.  With thresholds
`[10, 50]` and the page at 15 percent — already past the lowest threshold
10 — the check still attaches the scroll listener, because 15 < 25. -/
theorem c8_deferred_attach_counterexample :
    (deferredInitialCheck [10, 50] 15 ⟨⟨[], []⟩, false⟩).scrollEventAttached = true
    ∧ List.min? [10, 50] = some (10 : Int)
    ∧ ¬((15 : Rat) < 10) := by
  refine ⟨?_, rfl, by norm_num⟩
  rw [deferredInitialCheck, if_pos (by norm_num), attachScrollHandler]
  rfl

/-- C8 (amended): the deferred initial check attaches the scroll listener
if and only if the page's scroll percentage at check time is strictly
below the hard-coded constant 25 (which coincides with the lowest
threshold only for the default configuration) or the listener was already
attached by a first scroll; the configured thresholds play no role in the
decision, and when the percentage is at least 25 the check leaves the
state untouched. -/
theorem c8_deferred_attach (thresholds : List Int) (pct : Rat) (st : ScrollSetupState) :
    ((deferredInitialCheck thresholds pct st).scrollEventAttached
      = (decide (pct < 25) || st.scrollEventAttached))
    ∧ (¬(pct < 25) → deferredInitialCheck thresholds pct st = st) := by
  constructor
  · rw [deferredInitialCheck]
    by_cases hp : pct < 25
    · rw [if_pos hp, decide_eq_true hp, attachScrollHandler]
      by_cases ha : st.scrollEventAttached = true
      · rw [if_pos ha, ha]
        rfl
      · rw [if_neg ha]
        rfl
    · rw [if_neg hp, decide_eq_false hp, Bool.false_or]
  · intro hp
    rw [deferredInitialCheck, if_neg hp]

/-- C8 (amended, witness): at 80 percent nothing attaches and the state is
untouched (whatever the thresholds are); at 10 percent the listener
attaches. -/
theorem c8_deferred_attach_witness :
    (deferredInitialCheck [25, 50, 75] 80 ⟨⟨[], []⟩, false⟩).scrollEventAttached = false
    ∧ deferredInitialCheck [25, 50, 75] 80 ⟨⟨[], []⟩, false⟩ = ⟨⟨[], []⟩, false⟩
    ∧ (deferredInitialCheck [25, 50, 75] 10 ⟨⟨[], []⟩, false⟩).scrollEventAttached = true := by
  have h80 := c8_deferred_attach [25, 50, 75] 80 ⟨⟨[], []⟩, false⟩
  have h10 := c8_deferred_attach [25, 50, 75] 10 ⟨⟨[], []⟩, false⟩
  refine ⟨?_, h80.2 (by norm_num), ?_⟩
  · rw [h80.1]
    rfl
  · rw [h10.1]
    rfl

/-- C3 (witness): sanitizing `"A b!"` gives `"a_b_"`, a fixed point of the
sanitizer whose characters are in the class, with no doubled underscore. -/
theorem c3_sanitize_idempotent_witness :
    sanitizeEventName (sanitizeEventName ((r"A b!").data)) = sanitizeEventName ((r"A b!").data)
    ∧ isAllowedChar 'a' = true
    ∧ noDoubledUnderscore (sanitizeEventName ((r"A b!").data)) :=
  ⟨(c3_sanitize_idempotent ((r"A b!").data)).1,
    (c3_sanitize_idempotent ((r"A b!").data)).2.1 'a' (by decide),
    (c3_sanitize_idempotent ((r"A b!").data)).2.2⟩

/-- C2 (amended, witness): sanitizing `"!!a"` gives `"_a"`: all characters
in class, no doubled underscore (but the leading underscore is kept). -/
theorem c2_sanitize_charclass_witness :
    isAllowedChar '_' = true
    ∧ noDoubledUnderscore (sanitizeEventName ((r"!!a").data))
    ∧ sanitizeEventName ((r"!!a").data) = ['_', 'a'] :=
  ⟨(c2_sanitize_charclass ((r"!!a").data)).1 '_' (by decide),
    (c2_sanitize_charclass ((r"!!a").data)).2, rfl⟩
